import Mathlib

/-!
Verification development for a minimal peer-to-peer file distribution client
(`client.py`, `tracker.py`, `utils.py`).  The Python source is shallowly
embedded: byte strings become `List Nat`, the SHA-1 library call becomes an
explicit function parameter `sha1 : List Nat → List Nat`, file contents become
an explicit `List Nat` threaded through the piece store, and the per-session
thread loop becomes a step function over an explicit session state driven by a
list of (time, received-frame) events.  Python operations that raise
`IndexError` are modelled with `Option`: `none` is the raised exception.
-/

set_option maxHeartbeats 1000000

/-- Torrent descriptor, as produced by `utils.Torrent` (fields `announce`,
`piece_length`, `name`, `length`, `info_hash`, `pieces`, `total_pieces`). -/
structure Torrent where
  announce : String
  infoHash : List Nat
  pieceLength : Nat
  length : Nat
  name : String
  pieces : List (List Nat)
deriving Repr, DecidableEq

/-- `self.total_pieces = len(self.pieces)` in `utils.Torrent.__init__`. -/
def Torrent.totalPieces (t : Torrent) : Nat := t.pieces.length

/-- Length of piece `index`: `piece_length`, except the last piece, which is
`length % piece_length` when that remainder is nonzero.  This is the length
computation of `PieceManager._read_piece_data` (client.py lines 63-67) and of
the request pump (lines 159-162). -/
def pieceLen (t : Torrent) (index : Nat) : Nat :=
  if index = t.totalPieces - 1 then
    let remainder := t.length % t.pieceLength
    if remainder > 0 then remainder else t.pieceLength
  else t.pieceLength

/-- State owned by `PieceManager`: the completion bitmap `self.bitfield` and
the bytes of the on-disk target file. -/
structure StoreState where
  bitfield : List Bool
  disk : List Nat
deriving Repr, DecidableEq

/-- `PieceManager._read_piece_data` (client.py lines 61-72): seek to
`index * piece_length` and read `pieceLen t index` bytes (a read past the end
of the file returns the available bytes, as `file.read` does). -/
def readPieceData (t : Torrent) (disk : List Nat) (index : Nat) : List Nat :=
  (disk.drop (index * t.pieceLength)).take (pieceLen t index)

/-- Overwriting `data` at offset `pos` of a file opened `r+b`: bytes before
`pos` are kept, the file is zero-extended if `pos` is past the end, and bytes
after the written range are kept. -/
def writeBytes (disk : List Nat) (pos : Nat) (data : List Nat) : List Nat :=
  disk.take pos ++ List.replicate (pos - disk.length) 0 ++ data
    ++ disk.drop (pos + data.length)

/-- `PieceManager.is_complete` (client.py lines 99-100): `all(self.bitfield)`. -/
def is_complete (bitfield : List Bool) : Bool := bitfield.all (fun b => b)

/-- `PieceManager.write_piece` (client.py lines 74-91).  Returns `none` when
the Python code raises `IndexError` (accessing `self.torrent.pieces[index]` or
`self.bitfield[index]` out of range), otherwise `some (returnValue, newState)`.
The hash of `data` is compared against `piece_hashes[index]` before anything
else; a mismatch returns `False` with the state untouched; an already-present
piece returns `True` with the state untouched; otherwise the bytes are written
at `index * piece_length` and the bitmap bit is set. -/
def write_piece (sha1 : List Nat → List Nat) (t : Torrent) (s : StoreState)
    (index : Nat) (data : List Nat) : Option (Bool × StoreState) :=
  let piece_hash := sha1 data
  if hp : index < t.pieces.length then
    if piece_hash ≠ t.pieces[index] then some (false, s)
    else if hb : index < s.bitfield.length then
      if s.bitfield[index] then some (true, s)
      else some (true,
        { bitfield := s.bitfield.set index true
          disk := writeBytes s.disk (index * t.pieceLength) data })
    else none
  else none

/-- `PieceManager.read_piece` (client.py lines 93-97).  `none` is the raised
`IndexError` for an out-of-range index; `some none` is Python's `None` return
for a piece not yet present; `some (some bytes)` is a served piece. -/
def read_piece (t : Torrent) (s : StoreState) (index : Nat) :
    Option (Option (List Nat)) :=
  if hb : index < s.bitfield.length then
    if s.bitfield[index] = false then some none
    else some (some (readPieceData t s.disk index))
  else none

/-- The verification loop of `PieceManager._verify_existing_file` (client.py
lines 42-48): check pieces from `start` on, stopping (`break`) at the first
hash mismatch; `fuel` counts the remaining loop iterations. -/
def verifyFrom (sha1 : List Nat → List Nat) (t : Torrent) (disk : List Nat) :
    Nat → Nat → Bool
  | _, 0 => true
  | start, fuel + 1 =>
      if sha1 (readPieceData t disk start) ≠ t.pieces.getD start [] then false
      else verifyFrom sha1 t disk (start + 1) fuel

/-- `PieceManager.__init__` together with `_verify_existing_file` (client.py
lines 29-59), restricted to the bitmap it produces: start from all-`False`;
if the target file exists with size equal to `torrent.length` and the whole
verification loop succeeds, replace the bitmap by all-`True`. -/
def pieceManagerInit (sha1 : List Nat → List Nat) (t : Torrent)
    (fileExists : Bool) (fileSize : Nat) (disk : List Nat) : List Bool :=
  if fileExists && (fileSize == t.length) then
    if verifyFrom sha1 t disk 0 t.totalPieces then
      List.replicate t.totalPieces true
    else List.replicate t.totalPieces false
  else List.replicate t.totalPieces false

/-! ### Bitfield wire codec -/

/-- `create_bitfield` (client.py lines 15-25): pack a list of booleans into
`(len + 7) / 8` bytes, piece `i` at bit `7 - (i % 8)` of byte `i / 8`. -/
def create_bitfield (bitfield_list : List Bool) : List Nat :=
  let num_bytes := (bitfield_list.length + 7) / 8
  bitfield_list.enum.foldl
    (fun byte_array x =>
      if x.2 then
        byte_array.set (x.1 / 8)
          (byte_array.getD (x.1 / 8) 0 ||| (1 <<< (7 - x.1 % 8)))
      else byte_array)
    (List.replicate num_bytes 0)

/-- The bitfield-message handler (client.py lines 205-213): start from an
all-`False` list of length `total_pieces`; for byte `i` of the payload and bit
position `j`, set entry `i * 8 + j` when it is in range and bit `7 - j` of the
byte is set. -/
def decode_bitfield (total_pieces : Nat) (payload : List Nat) : List Bool :=
  payload.enum.foldl
    (fun temp x =>
      (List.range 8).foldl
        (fun temp2 j =>
          if x.1 * 8 + j < total_pieces then
            if (x.2 >>> (7 - j)) &&& 1 = 1 then temp2.set (x.1 * 8 + j) true
            else temp2
          else temp2)
        temp)
    (List.replicate total_pieces false)

/-! ### Peer session state machine

`PeerConnection.run` (client.py lines 120-238) is embedded as a step function
`loopIter` over an explicit session state.  One call models one iteration of
the main `while` loop at a time `now`, with the outcome of the blocking read
supplied as a `Recv` value.  Messages are modelled at the parsed level; sent
messages are collected in an output list. -/

/-- A parsed inbound protocol message (the dispatch of client.py
lines 193-228; ids 2, 3 and unrecognized ids have no handler). -/
inductive Msg where
  | choke : Msg
  | unchoke : Msg
  | interested : Msg
  | notInterested : Msg
  | haveMsg : Nat → Msg
  | bitfieldMsg : List Nat → Msg
  | requestMsg : Nat → Nat → Nat → Msg
  | pieceMsg : Nat → Nat → List Nat → Msg
  | unknown : Nat → Msg
deriving Repr, DecidableEq

/-- Outcome of one bounded-poll read in the main loop: poll timeout
(`continue`), closed socket (`break`), a zero-length keep-alive frame
(`continue`), or a parsed message. -/
inductive Recv where
  | timeout : Recv
  | closed : Recv
  | keepAliveIn : Recv
  | msg : Msg → Recv
deriving Repr, DecidableEq

/-- A message sent by the local client.  `haveOut ident i` is a `have(i)`
message sent on the session identified by `ident` (via
`Client.broadcast_have`); the other constructors are sends on the session's
own socket. -/
inductive OutMsg where
  | keepAlive : OutMsg
  | bitfieldOut : List Nat → OutMsg
  | interestedOut : OutMsg
  | unchokeOut : OutMsg
  | request : Nat → Nat → Nat → OutMsg
  | pieceOut : Nat → Nat → List Nat → OutMsg
  | haveOut : Nat → Nat → OutMsg
deriving Repr, DecidableEq

/-- `o` is a wire `request` message (id 6). -/
def isRequest : OutMsg → Bool
  | OutMsg.request _ _ _ => true
  | _ => false

/-- Mutable per-session state of `PeerConnection` (client.py lines 114-118):
`self.choked`, `self.peer_bitfield`, `self.outstanding_requests` (a dict from
piece index to issue timestamp, kept in insertion order), and
`self.last_message_sent`.  `dead` records that the thread has exited (socket
closed, or an uncaught exception). -/
structure SessionState where
  choked : Bool
  peerBitfield : List Bool
  outstanding : List (Nat × Nat)
  lastSent : Nat
  dead : Bool
deriving Repr, DecidableEq

/-- `PeerConnection.__init__` session fields: choked, empty peer bitfield,
no outstanding requests. -/
def initSession (t : Torrent) (now : Nat) : SessionState :=
  { choked := true
    peerBitfield := List.replicate t.totalPieces false
    outstanding := []
    lastSent := now
    dead := false }

/-- An entry of `Client.peers`: a session thread with its liveness and an
identifier distinguishing it from the other sessions. -/
structure PeerRef where
  alive : Bool
  ident : Nat
deriving Repr, DecidableEq

/-- `Client.broadcast_have` (client.py lines 266-270): send `have(i)` through
every peer session in `self.peers` that is alive.  There is no exclusion of
any session; in particular the session that downloaded the piece, which is
itself registered in `self.peers`, is included when alive. -/
def broadcast_have (peers : List PeerRef) (piece_index : Nat) : List OutMsg :=
  (peers.filter (fun p => p.alive)).map
    (fun p => OutMsg.haveOut p.ident piece_index)

/-- The eligibility test of the request pump (client.py line 158):
`not self.manager.bitfield[i] and self.peer_bitfield[i] and
i not in self.outstanding_requests`. -/
def eligiblePiece (haveBF peerBF : List Bool) (outstanding : List (Nat × Nat))
    (i : Nat) : Bool :=
  !(haveBF.getD i false) && peerBF.getD i false && (outstanding.lookup i).isNone

/-- The inner `for i in range(len(self.manager.bitfield))` scan of the request
pump (client.py lines 157-168): the first eligible index, if any. -/
def findEligible (haveBF peerBF : List Bool) (outstanding : List (Nat × Nat)) :
    Option Nat :=
  (List.range haveBF.length).find? (eligiblePiece haveBF peerBF outstanding)

/-- `PeerConnection.MAX_PIPELINED_REQUESTS` (client.py line 103). -/
def MAX_PIPELINED_REQUESTS : Nat := 5

/-- The pipelining `while` loop of the request pump (client.py lines
155-170): as long as the outstanding map has fewer than
`MAX_PIPELINED_REQUESTS` entries, pick the first eligible piece, send a
whole-piece request for it and record it as outstanding; stop as soon as no
eligible piece exists.  `fuel` is `MAX_PIPELINED_REQUESTS` minus the current
map size, which the loop condition makes a strictly decreasing measure. -/
def pumpLoop (t : Torrent) (haveBF peerBF : List Bool) (now : Nat) :
    Nat → List (Nat × Nat) → List (Nat × Nat) × List OutMsg
  | 0, outstanding => (outstanding, [])
  | fuel + 1, outstanding =>
      match findEligible haveBF peerBF outstanding with
      | none => (outstanding, [])
      | some i =>
          let rest := pumpLoop t haveBF peerBF now fuel (outstanding ++ [(i, now)])
          (rest.1, OutMsg.request i 0 (pieceLen t i) :: rest.2)

/-- Keep-alive action at the top of each loop iteration (client.py lines
144-145): after more than 60 seconds of send silence, send a zero-length
frame. -/
def keepAliveStep (sess : SessionState) (now : Nat) :
    SessionState × List OutMsg :=
  if now - sess.lastSent > 60 then
    ({ sess with lastSent := now }, [OutMsg.keepAlive])
  else (sess, [])

/-- Timeout sweep (client.py lines 148-151): drop every outstanding request
older than `REQUEST_TIMEOUT` (20 seconds). -/
def sweepStep (sess : SessionState) (now : Nat) : SessionState :=
  { sess with
      outstanding := sess.outstanding.filter (fun p => decide (now - p.2 ≤ 20)) }

/-- Request pump (client.py lines 153-170): skipped entirely when the store
is complete; the `while` condition also stops it while choked. -/
def pumpStep (t : Torrent) (store : StoreState) (sess : SessionState)
    (now : Nat) : SessionState × List OutMsg :=
  if is_complete store.bitfield then (sess, [])
  else if sess.choked then (sess, [])
  else
    let r := pumpLoop t store.bitfield sess.peerBitfield now
      (MAX_PIPELINED_REQUESTS - sess.outstanding.length) sess.outstanding
    ({ sess with
        outstanding := r.1
        lastSent := if r.2.isEmpty then sess.lastSent else now }, r.2)

/-- The message dispatch of the main loop (client.py lines 193-228), without
the `last_message_sent` bookkeeping added by `handleMsg`. -/
def handleMsgCore (sha1 : List Nat → List Nat) (t : Torrent)
    (peers : List PeerRef) (sess : SessionState) (store : StoreState)
    (m : Msg) : SessionState × StoreState × List OutMsg :=
  match m with
  | Msg.choke => ({ sess with choked := true, outstanding := [] }, store, [])
  | Msg.unchoke => ({ sess with choked := false }, store, [])
  | Msg.haveMsg index =>
      if index < sess.peerBitfield.length then
        ({ sess with peerBitfield := sess.peerBitfield.set index true },
          store, [])
      else (sess, store, [])
  | Msg.bitfieldMsg payload =>
      ({ sess with peerBitfield := decode_bitfield t.totalPieces payload },
        store, [])
  | Msg.requestMsg idx bgn _len =>
      match read_piece t store idx with
      | none => ({ sess with dead := true }, store, [])
      | some none => (sess, store, [])
      | some (some data) =>
          if data.isEmpty then (sess, store, [])
          else (sess, store, [OutMsg.pieceOut idx bgn data])
  | Msg.pieceMsg idx _bgn block =>
      if (sess.outstanding.lookup idx).isSome then
        let sess2 :=
          { sess with outstanding := sess.outstanding.filter (fun p => p.1 != idx) }
        match write_piece sha1 t store idx block with
        | none => ({ sess2 with dead := true }, store, [])
        | some r =>
            if r.1 then (sess2, r.2, broadcast_have peers idx)
            else (sess2, r.2, [])
      else (sess, store, [])
  | Msg.interested => (sess, store, [])
  | Msg.notInterested => (sess, store, [])
  | Msg.unknown _ => (sess, store, [])

/-- Message dispatch including the `last_message_sent` update performed by
`send_message` whenever a reply goes out. -/
def handleMsg (sha1 : List Nat → List Nat) (t : Torrent)
    (peers : List PeerRef) (sess : SessionState) (store : StoreState)
    (now : Nat) (m : Msg) : SessionState × StoreState × List OutMsg :=
  let r := handleMsgCore sha1 t peers sess store m
  ({ r.1 with lastSent := if r.2.2.isEmpty then r.1.lastSent else now },
    r.2.1, r.2.2)

/-- One iteration of the steady-state loop of `PeerConnection.run` (client.py
lines 140-228): keep-alive, timeout sweep, request pump, then one bounded
read and its dispatch.  A dead session does nothing. -/
def loopIter (sha1 : List Nat → List Nat) (t : Torrent)
    (peers : List PeerRef) (sess : SessionState) (store : StoreState)
    (now : Nat) (r : Recv) : SessionState × StoreState × List OutMsg :=
  if sess.dead then (sess, store, [])
  else
    let k := keepAliveStep sess now
    let s1 := sweepStep k.1 now
    let p := pumpStep t store s1 now
    match r with
    | Recv.timeout => (p.1, store, k.2 ++ p.2)
    | Recv.keepAliveIn => (p.1, store, k.2 ++ p.2)
    | Recv.closed => ({ p.1 with dead := true }, store, k.2 ++ p.2)
    | Recv.msg m =>
        let h := handleMsg sha1 t peers p.1 store now m
        (h.1, h.2.1, k.2 ++ p.2 ++ h.2.2)

/-- Run the steady-state loop over a list of (time, read outcome) events,
collecting every sent message. -/
def runFrom (sha1 : List Nat → List Nat) (t : Torrent) (peers : List PeerRef) :
    SessionState → StoreState → List (Nat × Recv) →
      SessionState × StoreState × List OutMsg
  | sess, store, [] => (sess, store, [])
  | sess, store, e :: rest =>
      let s := loopIter sha1 t peers sess store e.1 e.2
      let r := runFrom sha1 t peers s.1 s.2.1 rest
      (r.1, r.2.1, s.2.2 ++ r.2.2)

/-- The opening sequence after the handshake (client.py lines 135-137):
bitfield, interested, unchoke. -/
def openingSends (bitfield : List Bool) : List OutMsg :=
  [OutMsg.bitfieldOut (create_bitfield bitfield), OutMsg.interestedOut,
    OutMsg.unchokeOut]

/-! ### Concrete instances used by witnesses and counterexamples -/

/-- Stand-in for the SHA-1 digest used by the witnesses: the embedding treats
the hash function as an opaque parameter everywhere, so any concrete function
can instantiate it. -/
def toySha (data : List Nat) : List Nat :=
  [data.foldl (fun a b => a + b + 1) 0 % 251]

/-- Three-piece torrent (piece length 4, total length 10) whose recorded hash
for piece 2 does not match the bytes stored on disk in `exDisk`. -/
def exTorrent : Torrent :=
  { announce := "http://tracker"
    infoHash := List.replicate 20 0
    pieceLength := 4
    length := 10
    name := "file"
    pieces := [toySha [65, 65, 65, 65], toySha [66, 66, 66, 66], [999]] }

/-- On-disk bytes for `exTorrent`: pieces 0 and 1 hash correctly, piece 2 does
not. -/
def exDisk : List Nat := [65, 65, 65, 65, 66, 66, 66, 66, 67, 67]

/-- An example store with nothing downloaded yet. -/
def exStore : StoreState := { bitfield := [false, false, false], disk := exDisk }

/-! ### Claims about the Piece Store -/

theorem verifyFrom_eq_all (sha1 : List Nat → List Nat) (t : Torrent)
    (disk : List Nat) (fuel start : Nat) :
    verifyFrom sha1 t disk start fuel =
      (List.range' start fuel).all
        (fun i => decide (sha1 (readPieceData t disk i) = t.pieces.getD i [])) := by
  induction fuel generalizing start with
  | zero => simp [verifyFrom]
  | succ n ih =>
      rw [List.range'_succ]
      simp only [verifyFrom, List.all_cons, ih]
      by_cases h : sha1 (readPieceData t disk start) = t.pieces.getD start []
        <;> simp [h]

/-- C1 (counterexample): for `exTorrent`/`exDisk`, pieces 0 and 1 hash
correctly and piece 2 does not, yet construction over the existing
correctly-sized file marks the bitmap `[false, false, false]`, not the
claimed `[true, true, false]`: verification is all-or-nothing, not
per-piece. -/
theorem pieceManagerInit_not_per_piece :
    pieceManagerInit toySha exTorrent true exTorrent.length exDisk
        = [false, false, false] ∧
      toySha (readPieceData exTorrent exDisk 0) = exTorrent.pieces.getD 0 [] ∧
      toySha (readPieceData exTorrent exDisk 1) = exTorrent.pieces.getD 1 [] ∧
      toySha (readPieceData exTorrent exDisk 2) ≠ exTorrent.pieces.getD 2 [] ∧
      pieceManagerInit toySha exTorrent true exTorrent.length exDisk
        ≠ [true, true, false] := by
  decide

/-- C1 (amended): on construction over an existing file of the correct size,
the bitmap becomes all-`true` when every on-disk piece hashes to its recorded
hash, and stays all-`false` otherwise; in particular a single corrupted piece
leaves every piece marked missing. -/
theorem pieceManagerInit_all_or_nothing (sha1 : List Nat → List Nat)
    (t : Torrent) (disk : List Nat) :
    pieceManagerInit sha1 t true t.length disk =
      if (List.range t.totalPieces).all
          (fun i => decide (sha1 (readPieceData t disk i) = t.pieces.getD i []))
      then List.replicate t.totalPieces true
      else List.replicate t.totalPieces false := by
  simp [pieceManagerInit, verifyFrom_eq_all, List.range_eq_range']

/-- C2: `write_piece` on a block whose hash does not match
`piece_hashes[index]` returns `False` and leaves the store state (both the
on-disk bytes and the bitmap) exactly as it was. -/
theorem write_piece_hash_mismatch (sha1 : List Nat → List Nat) (t : Torrent)
    (s : StoreState) (index : Nat) (data : List Nat)
    (hi : index < t.pieces.length)
    (hmm : sha1 data ≠ t.pieces.getD index []) :
    write_piece sha1 t s index data = some (false, s) := by
  rw [List.getD_eq_getElem t.pieces [] hi] at hmm
  simp [write_piece, hi, hmm]

/-- C2 (witness): a concrete rejected block leaves the concrete store
untouched. -/
theorem write_piece_hash_mismatch_witness :
    write_piece toySha exTorrent exStore 0 [1, 2, 3] = some (false, exStore) :=
  write_piece_hash_mismatch toySha exTorrent exStore 0 [1, 2, 3]
    (by decide) (by decide)

/-- C9: for an index at or beyond `total_pieces`, `write_piece` raises
(`none`), rather than returning `False`, before touching disk or bitmap, and
`read_piece` likewise raises rather than returning `None`. -/
theorem store_out_of_range_raises (sha1 : List Nat → List Nat) (t : Torrent)
    (s : StoreState) (index : Nat) (data : List Nat)
    (hlen : s.bitfield.length = t.totalPieces)
    (hi : t.totalPieces ≤ index) :
    write_piece sha1 t s index data = none ∧ read_piece t s index = none := by
  have h1 : ¬ index < t.pieces.length := by
    simp only [Torrent.totalPieces] at hi; omega
  have h2 : ¬ index < s.bitfield.length := by
    rw [hlen]; omega
  constructor
  · simp [write_piece, h1]
  · simp [read_piece, h2]

/-- C9 (witness): a concrete out-of-range index raises in both operations. -/
theorem store_out_of_range_raises_witness :
    write_piece toySha exTorrent exStore 5 [0] = none ∧
      read_piece exTorrent exStore 5 = none :=
  store_out_of_range_raises toySha exTorrent exStore 5 [0]
    (by decide) (by decide)

/-- A session of the leecher about to receive piece 0, which it has
outstanding. -/
def sessD : SessionState :=
  { choked := false
    peerBitfield := [true, true, true]
    outstanding := [(0, 0)]
    lastSent := 0
    dead := false }

/-! ### Claims about the request pump and the choke discipline -/

theorem find?_range_min (p : Nat → Bool) (n i : Nat)
    (h : (List.range n).find? p = some i) :
    i < n ∧ p i = true ∧ ∀ j, j < i → p j = false := by
  induction n with
  | zero => simp [List.range_zero] at h
  | succ n ih =>
      rw [List.range_succ, List.find?_append] at h
      cases hf : (List.range n).find? p with
      | some j =>
          rw [hf] at h
          have h2 : some j = some i := h
          obtain ⟨hn, hp, hmin⟩ := ih (by rw [hf, h2])
          exact ⟨by omega, hp, hmin⟩
      | none =>
          rw [hf] at h
          replace h : List.find? p [n] = some i := h
          have hall := List.find?_eq_none.mp hf
          have hpi := List.find?_some h
          have hin := List.mem_of_find?_eq_some h
          simp only [List.mem_singleton] at hin
          subst hin
          refine ⟨Nat.lt_succ_self _, hpi, fun j hj => ?_⟩
          have := hall j (List.mem_range.mpr hj)
          simpa using this

/-- C7: when the inner scan of the request pump finds a piece, that piece is
eligible (`!have[i] ∧ peer_have[i] ∧ i ∉ pending`), no smaller index is
eligible, and the request the pump sends first is exactly a whole-piece
request for that index. -/
theorem pump_selects_lowest (t : Torrent) (haveBF peerBF : List Bool)
    (outstanding : List (Nat × Nat)) (now fuel i : Nat)
    (h : findEligible haveBF peerBF outstanding = some i) :
    i < haveBF.length ∧
      eligiblePiece haveBF peerBF outstanding i = true ∧
      (∀ j, j < i → eligiblePiece haveBF peerBF outstanding j = false) ∧
      (pumpLoop t haveBF peerBF now (fuel + 1) outstanding).2.head? =
        some (OutMsg.request i 0 (pieceLen t i)) := by
  obtain ⟨hn, hp, hmin⟩ := find?_range_min _ _ _ h
  refine ⟨hn, hp, hmin, ?_⟩
  simp [pumpLoop, h]

/-- C7 (witness): with `have = [true, false]`, `peer_have = [true, true]` and
nothing pending, the scan picks index 1 and index 1 is eligible. -/
theorem pump_selects_lowest_witness :
    eligiblePiece [true, false] [true, true] [] 1 = true :=
  (pump_selects_lowest exTorrent [true, false] [true, true] [] 0 0 1
    (by decide)).2.1

theorem pumpLoop_outstanding_length (t : Torrent) (haveBF peerBF : List Bool)
    (now : Nat) :
    ∀ fuel outstanding,
      ((pumpLoop t haveBF peerBF now fuel outstanding).1).length ≤
        outstanding.length + fuel := by
  intro fuel
  induction fuel with
  | zero => intro outstanding; simp [pumpLoop]
  | succ n ih =>
      intro outstanding
      simp only [pumpLoop]
      cases hf : findEligible haveBF peerBF outstanding with
      | none => simp
      | some i =>
          have := ih (outstanding ++ [(i, now)])
          simp only [List.length_append, List.length_singleton] at this
          simpa using by omega

theorem pumpLoop_requests_length (t : Torrent) (haveBF peerBF : List Bool)
    (now : Nat) :
    ∀ fuel outstanding,
      ((pumpLoop t haveBF peerBF now fuel outstanding).2).length ≤ fuel := by
  intro fuel
  induction fuel with
  | zero => intro outstanding; simp [pumpLoop]
  | succ n ih =>
      intro outstanding
      simp only [pumpLoop]
      cases hf : findEligible haveBF peerBF outstanding with
      | none => simp
      | some i =>
          have := ih (outstanding ++ [(i, now)])
          simpa using by omega

theorem keepAliveStep_outstanding (sess : SessionState) (now : Nat) :
    ((keepAliveStep sess now).1).outstanding = sess.outstanding := by
  unfold keepAliveStep; split <;> rfl

theorem keepAliveStep_choked (sess : SessionState) (now : Nat) :
    ((keepAliveStep sess now).1).choked = sess.choked := by
  unfold keepAliveStep; split <;> rfl

theorem pumpStep_outstanding_le (t : Torrent) (store : StoreState)
    (sess : SessionState) (now : Nat)
    (h : sess.outstanding.length ≤ MAX_PIPELINED_REQUESTS) :
    ((pumpStep t store sess now).1).outstanding.length ≤
      MAX_PIPELINED_REQUESTS := by
  unfold pumpStep
  split
  · exact h
  · split
    · exact h
    · have := pumpLoop_outstanding_length t store.bitfield sess.peerBitfield
        now (MAX_PIPELINED_REQUESTS - sess.outstanding.length) sess.outstanding
      simp only [MAX_PIPELINED_REQUESTS] at *
      omega

theorem pumpStep_choked (t : Torrent) (store : StoreState)
    (sess : SessionState) (now : Nat) :
    ((pumpStep t store sess now).1).choked = sess.choked := by
  unfold pumpStep; split
  · rfl
  · split <;> rfl

theorem handleMsgCore_outstanding_le (sha1 : List Nat → List Nat)
    (t : Torrent) (peers : List PeerRef) (sess : SessionState)
    (store : StoreState) (m : Msg)
    (h : sess.outstanding.length ≤ MAX_PIPELINED_REQUESTS) :
    ((handleMsgCore sha1 t peers sess store m).1).outstanding.length ≤
      MAX_PIPELINED_REQUESTS := by
  cases m with
  | choke => simp [handleMsgCore, MAX_PIPELINED_REQUESTS]
  | unchoke => simp only [handleMsgCore]; exact h
  | interested => simp only [handleMsgCore]; exact h
  | notInterested => simp only [handleMsgCore]; exact h
  | haveMsg i => simp only [handleMsgCore]; split <;> exact h
  | bitfieldMsg pl => simp only [handleMsgCore]; exact h
  | requestMsg a b c =>
      simp only [handleMsgCore]
      cases hrp : read_piece t store a with
      | none => simp only [hrp]; exact h
      | some o =>
          cases o with
          | none => simp only [hrp]; exact h
          | some d => simp only [hrp]; split <;> exact h
  | pieceMsg a b blk =>
      simp only [handleMsgCore]
      split
      · cases hw : write_piece sha1 t store a blk with
        | none =>
            simp only [hw]
            exact le_trans (List.length_filter_le _ _) h
        | some r =>
            simp only [hw]
            split <;> exact le_trans (List.length_filter_le _ _) h
      · exact h
  | unknown a => simp only [handleMsgCore]; exact h

theorem handleMsg_outstanding_le (sha1 : List Nat → List Nat)
    (t : Torrent) (peers : List PeerRef) (sess : SessionState)
    (store : StoreState) (now : Nat) (m : Msg)
    (h : sess.outstanding.length ≤ MAX_PIPELINED_REQUESTS) :
    ((handleMsg sha1 t peers sess store now m).1).outstanding.length ≤
      MAX_PIPELINED_REQUESTS := by
  simpa [handleMsg] using handleMsgCore_outstanding_le sha1 t peers sess store m h

theorem loopIter_outstanding_le (sha1 : List Nat → List Nat) (t : Torrent)
    (peers : List PeerRef) (sess : SessionState) (store : StoreState)
    (now : Nat) (r : Recv)
    (h : sess.outstanding.length ≤ MAX_PIPELINED_REQUESTS) :
    ((loopIter sha1 t peers sess store now r).1).outstanding.length ≤
      MAX_PIPELINED_REQUESTS := by
  unfold loopIter
  split
  · exact h
  · have hk : ((keepAliveStep sess now).1).outstanding.length ≤
        MAX_PIPELINED_REQUESTS := by
      rw [keepAliveStep_outstanding]; exact h
    have hs : ((sweepStep (keepAliveStep sess now).1 now)).outstanding.length ≤
        MAX_PIPELINED_REQUESTS := by
      simp only [sweepStep]
      exact le_trans (List.length_filter_le _ _) hk
    have hp := pumpStep_outstanding_le t store
      (sweepStep (keepAliveStep sess now).1 now) now hs
    cases r with
    | timeout => exact hp
    | keepAliveIn => exact hp
    | closed => exact hp
    | msg m => exact handleMsg_outstanding_le sha1 t peers _ store now m hp

theorem runFrom_outstanding_le (sha1 : List Nat → List Nat) (t : Torrent)
    (peers : List PeerRef) :
    ∀ (events : List (Nat × Recv)) (sess : SessionState) (store : StoreState),
      sess.outstanding.length ≤ MAX_PIPELINED_REQUESTS →
      ((runFrom sha1 t peers sess store events).1).outstanding.length ≤
        MAX_PIPELINED_REQUESTS := by
  intro events
  induction events with
  | nil => intro sess store h; exact h
  | cons e rest ih =>
      intro sess store h
      simp only [runFrom]
      exact ih _ _ (loopIter_outstanding_le sha1 t peers sess store e.1 e.2 h)

/-- C4: in every state reachable from session creation the outstanding-request
map holds at most `MAX_PIPELINED_REQUESTS` (= 5) entries, and one run of the
request pump issues at most `5 − |pending|` new requests (so it issues nothing
once the map has 5 entries). -/
theorem pending_at_most_five :
    (∀ (sha1 : List Nat → List Nat) (t : Torrent) (peers : List PeerRef)
        (store : StoreState) (now0 : Nat) (events : List (Nat × Recv)),
      ((runFrom sha1 t peers (initSession t now0) store events).1).outstanding.length
        ≤ MAX_PIPELINED_REQUESTS) ∧
    (∀ (t : Torrent) (haveBF peerBF : List Bool) (now : Nat)
        (outstanding : List (Nat × Nat)),
      ((pumpLoop t haveBF peerBF now
          (MAX_PIPELINED_REQUESTS - outstanding.length) outstanding).2).length
        ≤ MAX_PIPELINED_REQUESTS - outstanding.length) := by
  constructor
  · intro sha1 t peers store now0 events
    exact runFrom_outstanding_le sha1 t peers events _ store (by simp [initSession])
  · intro t haveBF peerBF now outstanding
    exact pumpLoop_requests_length t haveBF peerBF now _ outstanding

theorem handleMsgCore_no_request (sha1 : List Nat → List Nat) (t : Torrent)
    (peers : List PeerRef) (sess : SessionState) (store : StoreState)
    (m : Msg) :
    ∀ o ∈ (handleMsgCore sha1 t peers sess store m).2.2, isRequest o = false := by
  cases m with
  | choke => simp [handleMsgCore]
  | unchoke => simp [handleMsgCore]
  | interested => simp [handleMsgCore]
  | notInterested => simp [handleMsgCore]
  | haveMsg i => simp only [handleMsgCore]; split <;> simp
  | bitfieldMsg pl => simp [handleMsgCore]
  | requestMsg a b c =>
      simp only [handleMsgCore]
      cases hrp : read_piece t store a with
      | none => simp
      | some o =>
          cases o with
          | none => simp
          | some d =>
              simp only []
              split <;> simp [isRequest]
  | pieceMsg a b blk =>
      simp only [handleMsgCore]
      split
      · cases hw : write_piece sha1 t store a blk with
        | none => simp
        | some r =>
            simp only []
            split
            · intro o ho
              simp only [broadcast_have, List.mem_map] at ho
              obtain ⟨q, _, hq⟩ := ho
              rw [← hq]
              rfl
            · simp
      · simp
  | unknown a => simp [handleMsgCore]

theorem handleMsg_no_request (sha1 : List Nat → List Nat) (t : Torrent)
    (peers : List PeerRef) (sess : SessionState) (store : StoreState)
    (now : Nat) (m : Msg) :
    ∀ o ∈ (handleMsg sha1 t peers sess store now m).2.2, isRequest o = false := by
  simpa [handleMsg] using handleMsgCore_no_request sha1 t peers sess store m

theorem handleMsg_choked_preserved (sha1 : List Nat → List Nat) (t : Torrent)
    (peers : List PeerRef) (sess : SessionState) (store : StoreState)
    (now : Nat) (m : Msg) (hc : sess.choked = true)
    (hm : m ≠ Msg.unchoke) :
    ((handleMsg sha1 t peers sess store now m).1).choked = true := by
  cases m with
  | choke => simp [handleMsg, handleMsgCore]
  | unchoke => exact absurd rfl hm
  | interested => simpa [handleMsg, handleMsgCore] using hc
  | notInterested => simpa [handleMsg, handleMsgCore] using hc
  | haveMsg i =>
      simp only [handleMsg, handleMsgCore]
      split <;> simpa using hc
  | bitfieldMsg pl => simpa [handleMsg, handleMsgCore] using hc
  | requestMsg a b c =>
      simp only [handleMsg, handleMsgCore]
      cases hrp : read_piece t store a with
      | none => simpa using hc
      | some o =>
          cases o with
          | none => simpa using hc
          | some d =>
              simp only []
              split <;> simpa using hc
  | pieceMsg a b blk =>
      simp only [handleMsg, handleMsgCore]
      split
      · cases hw : write_piece sha1 t store a blk with
        | none => simpa using hc
        | some r =>
            simp only []
            split <;> simpa using hc
      · simpa using hc
  | unknown a => simpa [handleMsg, handleMsgCore] using hc

theorem loopIter_choked_no_request (sha1 : List Nat → List Nat) (t : Torrent)
    (peers : List PeerRef) (sess : SessionState) (store : StoreState)
    (now : Nat) (r : Recv) (hc : sess.choked = true) :
    (∀ o ∈ (loopIter sha1 t peers sess store now r).2.2, isRequest o = false) ∧
      (r ≠ Recv.msg Msg.unchoke →
        ((loopIter sha1 t peers sess store now r).1).choked = true) := by
  have hck : ((keepAliveStep sess now).1).choked = true := by
    rw [keepAliveStep_choked]; exact hc
  have hcs : (sweepStep (keepAliveStep sess now).1 now).choked = true := hck
  have hpump : pumpStep t store (sweepStep (keepAliveStep sess now).1 now) now
      = (sweepStep (keepAliveStep sess now).1 now, []) := by
    unfold pumpStep
    split
    · rfl
    · simp [hcs]
  have hkout : ∀ o ∈ (keepAliveStep sess now).2, isRequest o = false := by
    unfold keepAliveStep
    split <;> simp [isRequest]
  by_cases hd : sess.dead = true
  · constructor
    · intro o ho
      simp [loopIter, hd] at ho
    · intro _
      simp only [loopIter, hd, if_true]
      exact hc
  · cases r with
    | timeout =>
        constructor
        · intro o ho
          simp only [loopIter, hd, if_false, hpump, List.append_nil] at ho
          exact hkout o ho
        · intro _
          simp only [loopIter, hd, if_false, hpump]
          exact hcs
    | keepAliveIn =>
        constructor
        · intro o ho
          simp only [loopIter, hd, if_false, hpump, List.append_nil] at ho
          exact hkout o ho
        · intro _
          simp only [loopIter, hd, if_false, hpump]
          exact hcs
    | closed =>
        constructor
        · intro o ho
          simp only [loopIter, hd, if_false, hpump, List.append_nil] at ho
          exact hkout o ho
        · intro _
          simp only [loopIter, hd, if_false, hpump]
          exact hcs
    | msg m =>
        constructor
        · intro o ho
          simp only [loopIter, hd, if_false, hpump, List.append_nil] at ho
          rcases List.mem_append.mp ho with ho | ho
          · exact hkout o ho
          · exact handleMsg_no_request sha1 t peers _ store now m o ho
        · intro hne
          simp only [loopIter, hd, if_false, hpump]
          have hmne : m ≠ Msg.unchoke := by
            intro hcontra; exact hne (by rw [hcontra])
          exact handleMsg_choked_preserved sha1 t peers _ store now m hcs hmne

theorem runFrom_choked_no_request (sha1 : List Nat → List Nat) (t : Torrent)
    (peers : List PeerRef) :
    ∀ (events : List (Nat × Recv)) (sess : SessionState) (store : StoreState),
      sess.choked = true →
      (∀ e ∈ events, e.2 ≠ Recv.msg Msg.unchoke) →
      ∀ o ∈ (runFrom sha1 t peers sess store events).2.2, isRequest o = false := by
  intro events
  induction events with
  | nil => intro sess store _ _ o ho; simp [runFrom] at ho
  | cons e rest ih =>
      intro sess store hc hev o ho
      simp only [runFrom, List.mem_append] at ho
      have hstep := loopIter_choked_no_request sha1 t peers sess store e.1 e.2 hc
      rcases ho with ho | ho
      · exact hstep.1 o ho
      · have hnext := hstep.2 (hev e (List.mem_cons_self e rest))
        exact ih _ _ hnext (fun e' he' => hev e' (List.mem_cons_of_mem e he')) o ho

/-- C5: `am_choked` is true at session creation, set by a `choke` message and
cleared by an `unchoke`; the opening sequence contains no `request`; and from
any choked state, a run that never receives an `unchoke` sends no `request`
message at all. -/
theorem choke_discipline :
    (∀ (t : Torrent) (now0 : Nat), (initSession t now0).choked = true) ∧
    (∀ (sha1 : List Nat → List Nat) (t : Torrent) (peers : List PeerRef)
        (sess : SessionState) (store : StoreState) (now : Nat),
      ((handleMsg sha1 t peers sess store now Msg.choke).1).choked = true) ∧
    (∀ (sha1 : List Nat → List Nat) (t : Torrent) (peers : List PeerRef)
        (sess : SessionState) (store : StoreState) (now : Nat),
      ((handleMsg sha1 t peers sess store now Msg.unchoke).1).choked = false) ∧
    (∀ (bitfield : List Bool), ∀ o ∈ openingSends bitfield, isRequest o = false) ∧
    (∀ (sha1 : List Nat → List Nat) (t : Torrent) (peers : List PeerRef)
        (sess : SessionState) (store : StoreState) (events : List (Nat × Recv)),
      sess.choked = true →
      (∀ e ∈ events, e.2 ≠ Recv.msg Msg.unchoke) →
      ∀ o ∈ (runFrom sha1 t peers sess store events).2.2, isRequest o = false) := by
  refine ⟨fun t now0 => rfl, fun sha1 t peers sess store now => ?_,
    fun sha1 t peers sess store now => ?_, fun bitfield => ?_,
    fun sha1 t peers sess store events hc hev =>
      runFrom_choked_no_request sha1 t peers events sess store hc hev⟩
  · simp [handleMsg, handleMsgCore]
  · simp [handleMsg, handleMsgCore]
  · simp [openingSends, isRequest]

/-- C5 (witness): a freshly created (hence choked) session, run over an event
list with no `unchoke`, emits only non-request traffic; here the single
output is the keep-alive, which is not a request. -/
theorem choke_discipline_witness : isRequest OutMsg.keepAlive = false :=
  choke_discipline.2.2.2.2 toySha exTorrent [] (initSession exTorrent 0)
    exStore [(100, Recv.timeout)] rfl (by decide) OutMsg.keepAlive (by decide)

/-! ### Claims about the have broadcast -/

/-- C3 (counterexample): the broadcast after an accepted piece is sent to
every live session in the coordinator's registry with no exclusion.  Here the
registry holds exactly one live session, the `PeerRef` with ident 7 standing
for the very session that downloaded the piece (every `PeerConnection` is
appended to `Client.peers` when it is created, so the downloader is always in
the registry).  The accepted piece produces `have` traffic `[haveOut 7 0]`
directed at the downloader itself, where the claim — broadcast only to
sessions other than the downloader — demands no traffic at all. -/
theorem broadcast_includes_downloader :
    (handleMsg toySha exTorrent [{ alive := true, ident := 7 }] sessD exStore 5
        (Msg.pieceMsg 0 0 [65, 65, 65, 65])).2.2
      = [OutMsg.haveOut 7 0] := by
  decide

/-- C3 (amended): every piece acceptance (`write_piece` returning `True` on a
piece message for an outstanding index) triggers exactly one `have(i)` send
per live session — one per entry of the registry's alive-filtered list,
including the session that downloaded the piece — and none to dead
sessions. -/
theorem broadcast_to_all_alive (sha1 : List Nat → List Nat) (t : Torrent)
    (peers : List PeerRef) (sess : SessionState) (store : StoreState)
    (now idx bgn : Nat) (block : List Nat) (store2 : StoreState)
    (hpend : (sess.outstanding.lookup idx).isSome = true)
    (hacc : write_piece sha1 t store idx block = some (true, store2)) :
    (handleMsg sha1 t peers sess store now (Msg.pieceMsg idx bgn block)).2.2
      = (peers.filter (fun p => p.alive)).map
          (fun p => OutMsg.haveOut p.ident idx) := by
  simp [handleMsg, handleMsgCore, hpend, hacc, broadcast_have]

/-- C3 (witness): with a registry of one live session (the downloader, ident
7) and one dead session, the accepted piece 0 yields exactly the
alive-filtered broadcast. -/
theorem broadcast_to_all_alive_witness :
    (handleMsg toySha exTorrent
        [{ alive := true, ident := 7 }, { alive := false, ident := 3 }]
        sessD exStore 5 (Msg.pieceMsg 0 0 [65, 65, 65, 65])).2.2
      = (([{ alive := true, ident := 7 },
            { alive := false, ident := 3 }] : List PeerRef).filter
            (fun p => p.alive)).map (fun p => OutMsg.haveOut p.ident 0) :=
  broadcast_to_all_alive toySha exTorrent
    [{ alive := true, ident := 7 }, { alive := false, ident := 3 }]
    sessD exStore 5 0 0 [65, 65, 65, 65]
    { bitfield := [true, false, false], disk := exDisk }
    (by decide) (by decide)

/-! ### Tracker announce arithmetic (client side) -/

/-- The query parameters of `Client.announce_to_tracker` (client.py lines
280-286): `uploaded = 0`, `downloaded = sum(bitfield) * piece_length`
(Python's `sum` over booleans counts the `True` entries), and
`left = length - downloaded` as exact (possibly negative) integers. -/
structure AnnounceRequest where
  info_hash : List Nat
  peer_id : String
  port : Nat
  uploaded : Int
  downloaded : Int
  left : Int
deriving Repr, DecidableEq

/-- `Client.announce_to_tracker`'s parameter construction. -/
def announce_to_tracker (t : Torrent) (bitfield : List Bool)
    (peer_id : String) (port : Nat) : AnnounceRequest :=
  { info_hash := t.infoHash
    peer_id := peer_id
    port := port
    uploaded := 0
    downloaded :=
      (bitfield.map (fun b => if b then (1 : Int) else 0)).sum * t.pieceLength
    left := (t.length : Int) -
      (bitfield.map (fun b => if b then (1 : Int) else 0)).sum * t.pieceLength }

theorem sum_indicator_eq_count (bitfield : List Bool) :
    (bitfield.map (fun b => if b then (1 : Int) else 0)).sum =
      bitfield.count true := by
  induction bitfield with
  | nil => simp
  | cons b rest ih =>
      cases b
      · simp [List.count_cons, ih]
      · simp [List.count_cons, ih]
        ring

/-- C8: every announce reports `downloaded = popcount(have) · piece_length`
and `left = total_length − downloaded`, as exact integers computed from the
bitmap and the torrent descriptor. -/
theorem announce_reports_progress (t : Torrent) (bitfield : List Bool)
    (peer_id : String) (port : Nat) :
    (announce_to_tracker t bitfield peer_id port).downloaded =
        (bitfield.count true : Int) * t.pieceLength ∧
      (announce_to_tracker t bitfield peer_id port).left =
        (t.length : Int) - (bitfield.count true : Int) * t.pieceLength := by
  constructor <;> simp [announce_to_tracker, sum_indicator_eq_count]

/-! ### Tracker announce handler -/

/-- An entry of the tracker's per-torrent peer list (`PEERS_DB` values in
tracker.py). -/
structure TrackerPeer where
  id : String
  ip : String
  port : Nat
  status : String
  lastSeen : Nat
deriving Repr, DecidableEq

/-- The in-place update of an existing peer entry (tracker.py lines 85-89):
refresh `last_seen`, and overwrite `status` on a significant event. -/
def updateEntry (event : String) (now : Nat) (p : TrackerPeer) : TrackerPeer :=
  { p with
      lastSeen := now
      status := if event = "started" ∨ event = "completed" then event
                else p.status }

/-- The announce branch of `TrackerHandler.do_GET` (tracker.py lines 74-111)
after validation, for one torrent's peer list: update the database according
to the event, drop timed-out entries, and build the response peer list, which
excludes the announcing peer's own entry.  Returns (new peer list, response
`peers` array as (ip, port, id) triples). -/
def handleAnnounce (peer_list : List TrackerPeer) (peer_id client_ip : String)
    (port : Nat) (event : String) (now : Nat) :
    List TrackerPeer × List (String × Nat × String) :=
  let peer_index := peer_list.findIdx? (fun p => p.id == peer_id)
  let updated :=
    if event = "stopped" then
      match peer_index with
      | some i => peer_list.eraseIdx i
      | none => peer_list
    else
      match peer_index with
      | some i =>
          match peer_list[i]? with
          | some p => peer_list.set i (updateEntry event now p)
          | none => peer_list
      | none =>
          peer_list ++
            [{ id := peer_id, ip := client_ip, port := port
               status := if event ≠ "completed" then "started" else "completed"
               lastSeen := now }]
  let cleaned := updated.filter (fun p => decide (now - p.lastSeen < 60))
  let response_peers :=
    (cleaned.filter (fun p => p.id != peer_id)).map
      (fun p => (p.ip, p.port, p.id))
  (cleaned, response_peers)

/-- C10: the `peers` array the tracker returns to an announce never contains
an entry whose id equals the announcing request's `peer_id`. -/
theorem tracker_never_returns_self (peer_list : List TrackerPeer)
    (peer_id client_ip : String) (port : Nat) (event : String) (now : Nat) :
    ((handleAnnounce peer_list peer_id client_ip port event now).2).all
      (fun e => e.2.2 != peer_id) = true := by
  rw [List.all_eq_true]
  intro e he
  simp only [handleAnnounce, List.mem_map, List.mem_filter] at he
  obtain ⟨p, ⟨_, hp⟩, he⟩ := he
  rw [← he]
  exact hp

/-! ### Bitfield round trip (C6)

The encoder and decoder are characterized bit by bit: `BitSet arr idx` reads
the wire bit that piece `idx` occupies (bit `7 - idx % 8` of byte `idx / 8`),
and both fold loops are described by induction over `List.enumFrom`. -/

theorem getD_set {α : Type} (l : List α) (i k : Nat) (a d : α) :
    (l.set i a).getD k d = if i = k ∧ i < l.length then a else l.getD k d := by
  induction l generalizing i k with
  | nil => simp
  | cons x xs ih =>
      cases i with
      | zero =>
          cases k with
          | zero => simp
          | succ k => simp
      | succ i =>
          cases k with
          | zero => simp
          | succ k =>
              simp only [List.set_cons_succ, List.getD_cons_succ, ih]
              by_cases h : i = k ∧ i < xs.length
              · have h2 : i + 1 = k + 1 ∧ i + 1 < (x :: xs).length := by
                  simp only [List.length_cons]; omega
                rw [if_pos h, if_pos h2]
              · have h2 : ¬ (i + 1 = k + 1 ∧ i + 1 < (x :: xs).length) := by
                  simp only [List.length_cons]; omega
                rw [if_neg h, if_neg h2]

theorem getD_replicate {α : Type} (m k : Nat) (a : α) :
    (List.replicate m a).getD k a = a := by
  induction m generalizing k with
  | zero => simp
  | succ m ih =>
      cases k with
      | zero => simp [List.replicate_succ]
      | succ k => simp [List.replicate_succ, ih]

theorem and_one_eq_one_iff_testBit (x k : Nat) :
    ((x >>> k) &&& 1 = 1) ↔ Nat.testBit x k = true := by
  rw [Nat.testBit_to_div_mod, Nat.and_one_is_mod, Nat.shiftRight_eq_div_pow]
  simp

theorem testBit_one_shiftLeft (k m : Nat) :
    Nat.testBit (1 <<< k) m = decide (k = m) := by
  rw [Nat.shiftLeft_eq, one_mul, Nat.testBit_two_pow]

/-- The wire bit occupied by piece `idx` in a packed byte array. -/
def BitSet (arr : List Nat) (idx : Nat) : Prop :=
  Nat.testBit (arr.getD (idx / 8) 0) (7 - idx % 8) = true

/-- The body of the `create_bitfield` loop for one `(index, have_piece)`
pair. -/
def encStep (byte_array : List Nat) (x : Nat × Bool) : List Nat :=
  if x.2 then
    byte_array.set (x.1 / 8)
      (byte_array.getD (x.1 / 8) 0 ||| (1 <<< (7 - x.1 % 8)))
  else byte_array

theorem create_bitfield_eq (b : List Bool) :
    create_bitfield b =
      b.enum.foldl encStep (List.replicate ((b.length + 7) / 8) 0) := rfl

theorem encStep_length (arr : List Nat) (x : Nat × Bool) :
    (encStep arr x).length = arr.length := by
  unfold encStep; split <;> simp

theorem encStep_bit (arr : List Nat) (i : Nat) (hp : Bool) (idx : Nat) :
    BitSet (encStep arr (i, hp)) idx ↔
      BitSet arr idx ∨ (hp = true ∧ idx = i ∧ i / 8 < arr.length) := by
  cases hp with
  | false => simp [encStep, BitSet]
  | true =>
      simp only [encStep, if_true]
      unfold BitSet
      rw [getD_set]
      by_cases hcase : i / 8 = idx / 8 ∧ i / 8 < arr.length
      · rw [if_pos hcase]
        obtain ⟨hdiv, hlen⟩ := hcase
        rw [Nat.testBit_or, testBit_one_shiftLeft, hdiv]
        simp only [Bool.or_eq_true, decide_eq_true_eq]
        constructor
        · rintro (h | h)
          · exact Or.inl h
          · exact Or.inr ⟨by trivial, by omega, by omega⟩
        · rintro (h | ⟨-, h, -⟩)
          · exact Or.inl h
          · right; omega
      · rw [if_neg hcase]
        constructor
        · exact fun h => Or.inl h
        · rintro (h | ⟨-, h, hl⟩)
          · exact h
          · exact absurd ⟨by omega, hl⟩ hcase

theorem enc_foldl_length (l : List Bool) :
    ∀ (s : Nat) (arr : List Nat),
      (List.foldl encStep arr (List.enumFrom s l)).length = arr.length := by
  induction l with
  | nil => intro s arr; rfl
  | cons hd tl ih =>
      intro s arr
      rw [List.enumFrom_cons, List.foldl_cons, ih, encStep_length]

theorem enc_foldl_bit (l : List Bool) :
    ∀ (s : Nat) (arr : List Nat) (idx : Nat),
      (BitSet (List.foldl encStep arr (List.enumFrom s l)) idx ↔
        BitSet arr idx ∨
          (s ≤ idx ∧ idx < s + l.length ∧ l.getD (idx - s) false = true ∧
            idx / 8 < arr.length)) := by
  induction l with
  | nil =>
      intro s arr idx
      simp only [List.enumFrom_nil, List.foldl_nil, List.length_nil,
        Nat.add_zero]
      constructor
      · exact Or.inl
      · rintro (h | ⟨h1, h2, -⟩)
        · exact h
        · omega
  | cons hd tl ih =>
      intro s arr idx
      rw [List.enumFrom_cons, List.foldl_cons,
        ih (s + 1) (encStep arr (s, hd)) idx, encStep_bit, encStep_length]
      simp only [List.length_cons]
      rcases Nat.lt_trichotomy idx s with hlt | heq | hgt
      · constructor
        · rintro ((h | ⟨-, h2, -⟩) | ⟨h3, -, -, -⟩)
          · exact Or.inl h
          · omega
          · omega
        · rintro (h | ⟨h3, -, -, -⟩)
          · exact Or.inl (Or.inl h)
          · omega
      · subst heq
        constructor
        · rintro ((h | ⟨hhd, -, hlen⟩) | ⟨h3, -, -, -⟩)
          · exact Or.inl h
          · refine Or.inr ⟨le_refl idx, by omega, ?_, by omega⟩
            rw [Nat.sub_self, List.getD_cons_zero]
            exact hhd
          · omega
        · rintro (h | ⟨-, -, h5, h6⟩)
          · exact Or.inl (Or.inl h)
          · refine Or.inl (Or.inr ⟨?_, rfl, by omega⟩)
            rw [Nat.sub_self, List.getD_cons_zero] at h5
            exact h5
      · have hstep : idx - s = (idx - (s + 1)) + 1 := by omega
        constructor
        · rintro ((h | ⟨-, h2, -⟩) | ⟨h3, h4, h5, h6⟩)
          · exact Or.inl h
          · omega
          · refine Or.inr ⟨by omega, by omega, ?_, h6⟩
            rw [hstep, List.getD_cons_succ]
            exact h5
        · rintro (h | ⟨h3, h4, h5, h6⟩)
          · exact Or.inl (Or.inl h)
          · refine Or.inr ⟨by omega, by omega, ?_, h6⟩
            rw [hstep, List.getD_cons_succ] at h5
            exact h5

theorem create_bitfield_length (b : List Bool) :
    (create_bitfield b).length = (b.length + 7) / 8 := by
  rw [create_bitfield_eq, show b.enum = List.enumFrom 0 b from rfl,
    enc_foldl_length, List.length_replicate]

theorem create_bitfield_bit (b : List Bool) (idx : Nat) :
    BitSet (create_bitfield b) idx ↔
      (idx < b.length ∧ b.getD idx false = true) := by
  rw [create_bitfield_eq, show b.enum = List.enumFrom 0 b from rfl,
    enc_foldl_bit b 0 _ idx, List.length_replicate]
  constructor
  · rintro (h | ⟨-, h2, h3, -⟩)
    · exfalso
      unfold BitSet at h
      rw [getD_replicate, Nat.zero_testBit] at h
      exact Bool.false_ne_true h
    · refine ⟨by omega, ?_⟩
      rw [Nat.sub_zero] at h3
      simpa using h3
  · rintro ⟨h1, h2⟩
    refine Or.inr ⟨Nat.zero_le idx, by omega, ?_, by omega⟩
    rw [Nat.sub_zero]
    simpa using h2

/-- The innermost body of the `decode_bitfield` loops, for byte index `i`,
byte value `byte` and bit position `j`. -/
def decInner (total_pieces i byte : Nat) (temp2 : List Bool) (j : Nat) :
    List Bool :=
  if i * 8 + j < total_pieces then
    if (byte >>> (7 - j)) &&& 1 = 1 then temp2.set (i * 8 + j) true
    else temp2
  else temp2

/-- The body of the outer `decode_bitfield` loop for one `(index, byte)`
pair. -/
def decStep (total_pieces : Nat) (temp : List Bool) (x : Nat × Nat) :
    List Bool :=
  (List.range 8).foldl (decInner total_pieces x.1 x.2) temp

theorem decode_bitfield_eq (n : Nat) (payload : List Nat) :
    decode_bitfield n payload =
      payload.enum.foldl (decStep n) (List.replicate n false) := rfl

theorem decInner_length (n i byte : Nat) (temp2 : List Bool) (j : Nat) :
    (decInner n i byte temp2 j).length = temp2.length := by
  unfold decInner
  split
  · split <;> simp
  · rfl

theorem decInner_get (n i byte : Nat) (temp2 : List Bool) (j idx : Nat)
    (h : temp2.length = n) :
    ((decInner n i byte temp2 j).getD idx false = true ↔
      temp2.getD idx false = true ∨
        (idx = i * 8 + j ∧ idx < n ∧ Nat.testBit byte (7 - j) = true)) := by
  unfold decInner
  by_cases hr : i * 8 + j < n
  · rw [if_pos hr]
    by_cases hbit : (byte >>> (7 - j)) &&& 1 = 1
    · rw [if_pos hbit, getD_set]
      have hbit2 : Nat.testBit byte (7 - j) = true :=
        (and_one_eq_one_iff_testBit _ _).mp hbit
      by_cases he : i * 8 + j = idx ∧ i * 8 + j < temp2.length
      · rw [if_pos he]
        constructor
        · intro _
          exact Or.inr ⟨he.1.symm, by omega, hbit2⟩
        · intro _; rfl
      · rw [if_neg he]
        constructor
        · exact Or.inl
        · rintro (hh | ⟨h1, h2, -⟩)
          · exact hh
          · exact absurd ⟨h1.symm, by omega⟩ he
    · rw [if_neg hbit]
      have hbit2 : ¬ (Nat.testBit byte (7 - j) = true) := fun hc =>
        hbit ((and_one_eq_one_iff_testBit _ _).mpr hc)
      constructor
      · exact Or.inl
      · rintro (hh | ⟨-, -, h3⟩)
        · exact hh
        · exact absurd h3 hbit2
  · rw [if_neg hr]
    constructor
    · exact Or.inl
    · rintro (hh | ⟨h1, h2, -⟩)
      · exact hh
      · omega

theorem decInner_foldl_length (n i byte : Nat) (js : List Nat) :
    ∀ temp2 : List Bool,
      (js.foldl (decInner n i byte) temp2).length = temp2.length := by
  induction js with
  | nil => intro temp2; rfl
  | cons j0 tl ih =>
      intro temp2
      rw [List.foldl_cons, ih, decInner_length]

theorem decInner_foldl_get (n i byte : Nat) (js : List Nat) :
    ∀ (temp2 : List Bool) (idx : Nat), temp2.length = n →
      ((js.foldl (decInner n i byte) temp2).getD idx false = true ↔
        temp2.getD idx false = true ∨
          ∃ j ∈ js, idx = i * 8 + j ∧ idx < n ∧
            Nat.testBit byte (7 - j) = true) := by
  induction js with
  | nil => intro temp2 idx h; simp
  | cons j0 tl ih =>
      intro temp2 idx h
      rw [List.foldl_cons,
        ih (decInner n i byte temp2 j0) idx (by rw [decInner_length]; exact h),
        decInner_get n i byte temp2 j0 idx h]
      constructor
      · rintro ((hh | hj) | ⟨j, hjmem, hj2⟩)
        · exact Or.inl hh
        · exact Or.inr ⟨j0, List.mem_cons_self _ _, hj⟩
        · exact Or.inr ⟨j, List.mem_cons_of_mem _ hjmem, hj2⟩
      · rintro (hh | ⟨j, hjmem, hj2⟩)
        · exact Or.inl (Or.inl hh)
        · rcases List.mem_cons.mp hjmem with heq | hmem
          · subst heq
            exact Or.inl (Or.inr hj2)
          · exact Or.inr ⟨j, hmem, hj2⟩

theorem decStep_length (n : Nat) (temp : List Bool) (x : Nat × Nat) :
    (decStep n temp x).length = temp.length :=
  decInner_foldl_length n x.1 x.2 (List.range 8) temp

theorem decStep_get (n : Nat) (temp : List Bool) (i byte idx : Nat)
    (h : temp.length = n) :
    ((decStep n temp (i, byte)).getD idx false = true ↔
      temp.getD idx false = true ∨
        ∃ j, j < 8 ∧ idx = i * 8 + j ∧ idx < n ∧
          Nat.testBit byte (7 - j) = true) := by
  unfold decStep
  rw [decInner_foldl_get n i byte (List.range 8) temp idx h]
  simp only [List.mem_range]

theorem dec_foldl_length (n : Nat) (bytes : List Nat) :
    ∀ (s : Nat) (temp : List Bool),
      (List.foldl (decStep n) temp (List.enumFrom s bytes)).length =
        temp.length := by
  induction bytes with
  | nil => intro s temp; rfl
  | cons hd tl ih =>
      intro s temp
      rw [List.enumFrom_cons, List.foldl_cons, ih, decStep_length]

theorem dec_foldl_get (n : Nat) (bytes : List Nat) :
    ∀ (s : Nat) (temp : List Bool) (idx : Nat), temp.length = n →
      ((List.foldl (decStep n) temp (List.enumFrom s bytes)).getD idx false
          = true ↔
        temp.getD idx false = true ∨
          ∃ bi, bi < bytes.length ∧ ∃ j, j < 8 ∧ idx = (s + bi) * 8 + j ∧
            idx < n ∧ Nat.testBit (bytes.getD bi 0) (7 - j) = true) := by
  induction bytes with
  | nil => intro s temp idx h; simp
  | cons hd tl ih =>
      intro s temp idx h
      rw [List.enumFrom_cons, List.foldl_cons,
        ih (s + 1) (decStep n temp (s, hd)) idx
          (by rw [decStep_length]; exact h),
        decStep_get n temp s hd idx h]
      simp only [List.length_cons]
      constructor
      · rintro ((hh | ⟨j, hj8, hje, hjn, hjb⟩) | ⟨bi, hbi, j, hj8, hje, hjn, hjb⟩)
        · exact Or.inl hh
        · exact Or.inr ⟨0, by omega, j, hj8, by omega, hjn,
            by simpa using hjb⟩
        · exact Or.inr ⟨bi + 1, by omega, j, hj8, by omega, hjn,
            by simpa using hjb⟩
      · rintro (hh | ⟨bi, hbi, j, hj8, hje, hjn, hjb⟩)
        · exact Or.inl (Or.inl hh)
        · cases bi with
          | zero =>
              exact Or.inl (Or.inr ⟨j, hj8, by omega, hjn, by simpa using hjb⟩)
          | succ k =>
              exact Or.inr ⟨k, by omega, j, hj8, by omega, hjn,
                by simpa using hjb⟩

theorem decode_bitfield_length (n : Nat) (payload : List Nat) :
    (decode_bitfield n payload).length = n := by
  rw [decode_bitfield_eq,
    show payload.enum = List.enumFrom 0 payload from rfl,
    dec_foldl_length, List.length_replicate]

theorem decode_bitfield_get (n : Nat) (payload : List Nat) (idx : Nat) :
    ((decode_bitfield n payload).getD idx false = true ↔
      idx / 8 < payload.length ∧ idx < n ∧
        Nat.testBit (payload.getD (idx / 8) 0) (7 - idx % 8) = true) := by
  rw [decode_bitfield_eq,
    show payload.enum = List.enumFrom 0 payload from rfl,
    dec_foldl_get n payload 0 _ idx (List.length_replicate n false)]
  constructor
  · rintro (hh | ⟨bi, hbi, j, hj8, hje, hjn, hjb⟩)
    · rw [getD_replicate] at hh
      exact absurd hh (by simp)
    · have hbi2 : bi = idx / 8 := by omega
      have hj2 : j = idx % 8 := by omega
      subst hbi2
      subst hj2
      exact ⟨hbi, hjn, hjb⟩
  · rintro ⟨h1, h2, h3⟩
    exact Or.inr ⟨idx / 8, h1, idx % 8, by omega, by omega, h2, h3⟩

/-- C6: for every boolean bitmap, decoding the encoded bitfield yields the
bitmap back: `decode_bitfield total_pieces (create_bitfield b) = b` with
`total_pieces = b.length`, the encoder packing piece `i` MSB-first at bit
`7 - i % 8` of byte `i / 8` into `(len + 7) / 8` bytes and the decoder
ignoring trailing padding bits. -/
theorem bitfield_roundtrip (b : List Bool) :
    decode_bitfield b.length (create_bitfield b) = b := by
  apply List.ext_getElem
  · rw [decode_bitfield_length]
  · intro idx h1 h2
    rw [← List.getD_eq_getElem _ false h1, ← List.getD_eq_getElem _ false h2]
    rw [Bool.eq_iff_iff, decode_bitfield_get, create_bitfield_length]
    constructor
    · rintro ⟨-, -, h3⟩
      have hb : BitSet (create_bitfield b) idx := h3
      rw [create_bitfield_bit] at hb
      exact hb.2
    · intro hget
      refine ⟨by omega, h2, ?_⟩
      have hb : BitSet (create_bitfield b) idx := by
        rw [create_bitfield_bit]
        exact ⟨h2, hget⟩
      exact hb
